import Mathlib

/-!
# Verification of the substacker classification engine

Shallow embedding of the core classification engine of the `substacker`
repository (`src/modules/labeling.py`, `src/modules/cache.py`,
`src/modules/validation.py`, `src/modules/config.py`, `src/definitions.py`)
together with proofs of the specification claims about it.

Modelling conventions:
* Python strings are Lean `String`s (ASCII inputs); the string operations
  the code uses (`str.lower`, `str.strip`, `str.split`, `in`) are
  re-implemented structurally on `List Char` so that the kernel can
  evaluate them (`lowerData`, `trimData`, `splitChar`, `containsSub`).
* The float scores (weights 4, 3, 2, 1, 1.5 and thresholds 1, 5) are exact
  in this range, so scores are modelled as `ℚ`.
* `re.search(pattern, text, re.IGNORECASE)` for the patterns built by
  `word_boundary_search` (a `\b`-delimited keyword, with `\s+` between the
  words of a multi-word keyword) is modelled by an executable scanner over
  the lowercased character list; `IGNORECASE` becomes lowercasing both the
  text and the keyword, which coincides with Python's behaviour on ASCII
  (and `\b` positions are unchanged by ASCII lowercasing).
* Publications are records; a missing dict key is the neutral default
  (`""`, `none`, `[]`, `false`), except `link`, which is `Option String`
  because `find_duplicates` distinguishes `None` from `""`.
-/

namespace Substacker

/-- `str.lower` (ASCII), on the character list. -/
def lowerData (s : String) : List Char :=
  s.data.map Char.toLower

/-- Python `list.split(sep)` for a single-character separator, on character
lists: `splitChar ' ' "a b" = ["a", "b"]`, `splitChar ' ' "" = [""]`. -/
def splitChar (sep : Char) : List Char → List (List Char)
  | [] => [[]]
  | c :: t =>
    if c == sep then
      [] :: splitChar sep t
    else
      match splitChar sep t with
      | [] => [[c]]
      | w :: ws => (c :: w) :: ws

/-- A regex word character (`\w` = `[A-Za-z0-9_]` on the ASCII inputs used
here), as used by the `\b` assertions in `word_boundary_search`. -/
def isWordChar (c : Char) : Bool :=
  c.isAlphanum || c == '_'

/-- A regex whitespace character (`\s` = `[ \t\n\r\f\v]`), as matched by the
`\s+` that `word_boundary_search` substitutes for spaces in a multi-word
keyword. -/
def isWsChar (c : Char) : Bool :=
  c == ' ' || c == '\t' || c == '\n' || c == '\r' ||
    c == Char.ofNat 11 || c == Char.ofNat 12

/-- Match a literal word at the head of the input; on success return the
rest of the input.  (Both sides are already lowercased.) -/
def matchChars : List Char → List Char → Option (List Char)
  | [], s => some s
  | _ :: _, [] => none
  | c :: cs, d :: ds => if c == d then matchChars cs ds else none

/-- Match `\s+` at the head of the input (greedily, like the regex engine;
the next pattern atom is a word character, so greediness is harmless). -/
def matchGap : List Char → Option (List Char)
  | [] => none
  | c :: s => if isWsChar c then some (s.dropWhile isWsChar) else none

/-- Match the sequence of keyword words, separated by `\s+`, at the head of
the input; on success return the rest of the input. -/
def matchWords : List (List Char) → List Char → Option (List Char)
  | [], s => some s
  | [w], s => matchChars w s
  | w :: w' :: ws, s =>
    match matchChars w s with
    | none => none
    | some s1 =>
      match matchGap s1 with
      | none => none
      | some s2 => matchWords (w' :: ws) s2

/-- The trailing `\b` of the pattern: the remainder of the text must not
start with a word character. -/
def boundaryOk : List Char → Bool
  | [] => true
  | c :: _ => !isWordChar c

/-- Try to match the whole pattern (keyword words plus the trailing `\b`)
at the current position. -/
def tryHere (words : List (List Char)) (s : List Char) : Bool :=
  match matchWords words s with
  | some r => boundaryOk r
  | none => false

/-- `re.search`-style scan over the text: try the pattern at every
position whose preceding character is not a word character (the leading
`\b`); `prev` records whether the previous character was a word character. -/
def wbScan (words : List (List Char)) : List Char → Bool → Bool
  | [], prev => !prev && tryHere words []
  | c :: t, prev => (!prev && tryHere words (c :: t)) || wbScan words t (isWordChar c)

/-- The word-character flag `wbScan` carries, recovered from the consumed
text: the flag before scanning `rest` is `prev` when nothing was consumed,
else whether the last consumed character is a word character. -/
def prevFlag (prev : Bool) (pre : List Char) : Bool :=
  match pre.getLast? with
  | none => prev
  | some c => isWordChar c

/-- Embedding of `word_boundary_search(text, keyword)`
(`src/modules/labeling.py:32-43`): search the text for
`\b kw1 \s+ kw2 \s+ ... \b` (the words of the keyword), case-insensitively.
Faithful for keywords made of alphanumeric words separated by single
spaces — which every keyword in `KEYWORD_CATEGORIES` is (for such words
`re.escape` is the identity). -/
def word_boundary_search (text keyword : String) : Bool :=
  wbScan (splitChar ' ' (lowerData keyword)) (lowerData text) false

/-- The keyword occurs in the (lowercased) text as a whole phrase: the
given segment is exactly the keyword's words with nonempty whitespace runs
between them. -/
def PhraseSeg : List (List Char) → List Char → Prop
  | [], mid => mid = []
  | [w], mid => mid = w
  | w :: w' :: ws, mid =>
    ∃ gap rest, mid = w ++ gap ++ rest ∧ gap ≠ [] ∧
      (∀ c ∈ gap, isWsChar c = true) ∧ PhraseSeg (w' :: ws) rest

/-- Spec-side predicate: the keyword occurs as a whole word (whole phrase,
for multi-word keywords) in the text, case-insensitively: the lowercased
text splits as `pre ++ mid ++ post` where `mid` is an instance of the
lowercased keyword phrase and the characters adjacent to `mid` (if any)
are not word characters. -/
def OccursWholeWord (text keyword : String) : Prop :=
  ∃ pre mid post, lowerData text = pre ++ mid ++ post ∧
    PhraseSeg (splitChar ' ' (lowerData keyword)) mid ∧
    (∀ c, pre.getLast? = some c → isWordChar c = false) ∧
    (∀ c, post.head? = some c → isWordChar c = false)

/-- A word list is well formed when each word is nonempty and made of word
characters only. -/
def WFWords (words : List (List Char)) : Prop :=
  ∀ w ∈ words, w ≠ [] ∧ ∀ c ∈ w, isWordChar c = true

instance (words : List (List Char)) : Decidable (WFWords words) := by
  unfold WFWords
  exact inferInstance

/-- A keyword is well formed when each of its space-separated words is
nonempty and made of word characters only.  Every keyword in
`KEYWORD_CATEGORIES` is well formed. -/
def WFKeyword (keyword : String) : Prop :=
  WFWords (splitChar ' ' (lowerData keyword))

instance (keyword : String) : Decidable (WFKeyword keyword) := by
  unfold WFKeyword
  exact inferInstance

/-! ## The category scorer (`calculate_category_score`) -/

/-- The per-publication bundle of text sources assembled by the
orchestrator (`text_sources` dict in `auto_label_publications`). -/
structure TextSources where
  name : String
  author : String
  url_keywords : List String
  content : String
  author_bio : String
deriving DecidableEq

/-- Python `" ".join(parts)`, on character lists. -/
def joinSpace : List String → List Char
  | [] => []
  | [s] => s.data
  | s :: t :: ts => s.data ++ ' ' :: joinSpace (t :: ts)

/-- `wbScan` applied to pre-lowered character lists (the scorer lowercases
its sources once and the keyword once before searching). -/
def wbSearchData (text keyword : List Char) : Bool :=
  wbScan (splitChar ' ' keyword) text false

/-- One iteration of the keyword loop of `calculate_category_score`
(`src/modules/labeling.py:57-82`): each source that matches the keyword
adds its fixed weight to the score and an evidence string to the match
list; `author_bio` and `content` are searched only when nonempty. -/
def scoreStep (name_text author_text url_text content_text author_bio_text : List Char)
    (acc : ℚ × List String) (keyword : String) : ℚ × List String :=
  let kl := lowerData keyword
  let acc1 := if author_bio_text ≠ [] ∧ wbSearchData author_bio_text kl = true then
      (acc.1 + 4, acc.2 ++ [keyword ++ " in author bio"]) else acc
  let acc2 := if wbSearchData name_text kl = true then
      (acc1.1 + 3, acc1.2 ++ [keyword ++ " in name"]) else acc1
  let acc3 := if wbSearchData url_text kl = true then
      (acc2.1 + 2, acc2.2 ++ [keyword ++ " in URL"]) else acc2
  let acc4 := if wbSearchData author_text kl = true then
      (acc3.1 + 1, acc3.2 ++ [keyword ++ " in author"]) else acc3
  if content_text ≠ [] ∧ wbSearchData content_text kl = true then
      (acc4.1 + 3 / 2, acc4.2 ++ [keyword ++ " in content"]) else acc4

set_option linter.unusedVariables false in
/-- Embedding of `calculate_category_score(category, keywords, text_sources)`
(`src/modules/labeling.py:46-84`): lowercase each text source once
(`url_keywords` joined by spaces first), then fold the keyword loop over
the keyword list, accumulating the weighted score and the evidence
strings. -/
def calculate_category_score (category : String) (keywords : List String)
    (ts : TextSources) : ℚ × List String :=
  let name_text := lowerData ts.name
  let author_text := lowerData ts.author
  let url_text := (joinSpace ts.url_keywords).map Char.toLower
  let content_text := lowerData ts.content
  let author_bio_text := lowerData ts.author_bio
  keywords.foldl (scoreStep name_text author_text url_text content_text author_bio_text)
    (0, [])

/-- Empty text sources, for building concrete inputs. -/
def emptyTS : TextSources :=
  { name := "", author := "", url_keywords := [], content := "", author_bio := "" }

/-- The fixed per-source weights of one keyword against the five lowered
text sources, as independent summands (the spec's reading of the weight
table: each source contributes its fixed weight on a hit, and the
contributions add). -/
def kwWeight (name_text author_text url_text content_text author_bio_text : List Char)
    (keyword : String) : ℚ :=
  (if author_bio_text ≠ [] ∧ wbSearchData author_bio_text (lowerData keyword) = true then 4
    else 0) +
  (if wbSearchData name_text (lowerData keyword) = true then 3 else 0) +
  (if wbSearchData url_text (lowerData keyword) = true then 2 else 0) +
  (if wbSearchData author_text (lowerData keyword) = true then 1 else 0) +
  (if content_text ≠ [] ∧ wbSearchData content_text (lowerData keyword) = true then 3 / 2
    else 0)

/-- The spec-side per-keyword score of a text-sources bundle: the sum of
the per-source weights of the keyword. -/
def keywordSourceScore (ts : TextSources) (keyword : String) : ℚ :=
  kwWeight (lowerData ts.name) (lowerData ts.author)
    ((joinSpace ts.url_keywords).map Char.toLower) (lowerData ts.content)
    (lowerData ts.author_bio) keyword

/-! ## The labeling orchestrator (`auto_label_publications`) -/

/-- A publication record.  `link` is `Option String` because the code
distinguishes a missing/`None` link from an empty-string link
(`find_duplicates` checks `is not None`); a missing `labels` key and an
empty label list behave identically everywhere, so both are `[]`. -/
structure Publication where
  name : String
  author : String
  link : Option String
  is_paid : Bool
  labels : List String
deriving DecidableEq, Inhabited, Repr

/-- Python `needle in hay` (substring test) on character lists. -/
def hasSub (needle : List Char) : List Char → Bool
  | [] => (matchChars needle []).isSome
  | c :: t => (matchChars needle (c :: t)).isSome || hasSub needle t

/-- Python `str.strip()` (whitespace at both ends), on character lists. -/
def trimData (l : List Char) : List Char :=
  ((l.dropWhile isWsChar).reverse.dropWhile isWsChar).reverse

/-- First whitespace-separated token of a string (`str.split()[0]` when the
string has one; `[]` when it has none), on character lists. -/
def firstTokenData (l : List Char) : List Char :=
  (l.dropWhile isWsChar).takeWhile (fun c => !isWsChar c)

/-- Python `path.strip('/')`, on character lists. -/
def stripSlash (l : List Char) : List Char :=
  ((l.dropWhile (· == '/')).reverse.dropWhile (· == '/')).reverse

/-- Scan forward to the first `"://"` and return what follows it, as
`urlparse` does for the URLs this program sees (a scheme followed by
`://`, no query/fragment/userinfo; when no `"://"` occurs the whole string
is the path and the netloc is empty). -/
def afterSchemeMark : List Char → Option (List Char)
  | [] => none
  | ':' :: '/' :: '/' :: rest => some rest
  | _ :: t => afterSchemeMark t

/-- The domain tokens dropped by `extract_url_keywords`. -/
def droppedUrlTokens : List (List Char) :=
  ["www", "com", "org", "net", "substack", "io", "co"].map String.data

/-- Embedding of `extract_url_keywords(url)` (`src/modules/labeling.py:14-29`):
lowercase the URL, split the netloc on `.` and the `/`-stripped path on
`/`, and keep every part not in the fixed drop list, domain parts first. -/
def extract_url_keywords (url : String) : List String :=
  if url = "" then []
  else
    let u := lowerData url
    let (netloc, path) :=
      match afterSchemeMark u with
      | some rest => (rest.takeWhile (fun c => c != '/'), rest.dropWhile (fun c => c != '/'))
      | none => ([], u)
    let domain_parts := splitChar '.' netloc
    let path_parts := splitChar '/' (stripSlash path)
    ((domain_parts ++ path_parts).filter (fun p => !droppedUrlTokens.contains p)).map
      String.mk

/-- The collaborators and configuration tables injected into the
orchestrator.  `knownAuthors` models the `KNOWN_AUTHORS` table
(imported by `labeling.py` from `definitions`, where it is not defined in
the sources at hand; per the spec it is a static map from lowercased
author name to a list of bio strings).  `fetchContent` models
`analyze_publication_content` and `cacheContent` models a hit in
`get_cached_metadata` followed by `.get("content_text", "")`. -/
structure LabelEnv where
  categories : List (String × List String)
  knownAuthors : List (String × List String)
  fetchContent : String → String
  cacheContent : String → Option String

/-- Text-source assembly of `auto_label_publications`
(`src/modules/labeling.py:110-144`): name and author verbatim, URL tokens
from the link, the known-author bio by exact lowercased-stripped author
lookup with a first-name fallback, and the content from the cache or the
collaborator when content analysis is enabled and a link is present. -/
def buildTextSources (env : LabelEnv) (analyzeContent useCache : Bool)
    (pub : Publication) : TextSources :=
  let linkStr := pub.link.getD ""
  let author_name := String.mk (trimData (lowerData pub.author))
  let author_bio :=
    match env.knownAuthors.lookup author_name with
    | some bios => String.mk (joinSpace bios)
    | none =>
      let first_name :=
        if author_name ≠ "" then String.mk (firstTokenData author_name.data) else ""
      if first_name ≠ "" then
        match env.knownAuthors.lookup first_name with
        | some bios => String.mk (joinSpace bios)
        | none => ""
      else ""
  let content :=
    if analyzeContent ∧ linkStr ≠ "" then
      match (if useCache then env.cacheContent linkStr else none) with
      | some c => c
      | none => env.fetchContent linkStr
    else ""
  { name := pub.name, author := pub.author,
    url_keywords := extract_url_keywords linkStr,
    content := content, author_bio := author_bio }

/-- The payment label (`src/modules/labeling.py:104-108`): exactly one of
`paid`/`free`. -/
def paymentLabel (pub : Publication) : String :=
  if pub.is_paid then "paid" else "free"

/-- The `category_scores` dict (`src/modules/labeling.py:146-152`): every
category whose score is strictly positive, with its score, in table
order. -/
def categoryScores (cats : List (String × List String)) (ts : TextSources) :
    List (String × ℚ) :=
  cats.filterMap fun ck =>
    let s := (calculate_category_score ck.1 ck.2 ts).1
    if s > 0 then some (ck.1, s) else none

/-- One retained category of the threshold loop
(`src/modules/labeling.py:154-162`): score ≥ 1 appends the base label and
score ≥ 5 additionally appends the `-focused` label. -/
def thresholdStep (l : List String) (cs : String × ℚ) : List String :=
  (l ++ (if cs.2 ≥ 1 then [cs.1] else [])) ++
    (if cs.2 ≥ 5 then [cs.1 ++ "-focused"] else [])

/-- Threshold application (`src/modules/labeling.py:154-162`), folded over
the retained categories. -/
def thresholdAdds (scores : List (String × ℚ)) : List String :=
  scores.foldl thresholdStep []

/-- The label list after the payment label and threshold application,
before fallbacks (steps 2-5 of the orchestrator). -/
def labelsAfterThreshold (env : LabelEnv) (analyzeContent useCache : Bool)
    (pub : Publication) : List String :=
  paymentLabel pub ::
    thresholdAdds (categoryScores env.categories (buildTextSources env analyzeContent useCache pub))

/-- The token tables of fallback strategy 4 (`src/modules/labeling.py:203-214`). -/
def techUrlTokens : List String := ["tech", "code", "dev", "engineering"]

/-- See `techUrlTokens`. -/
def newsUrlTokens : List String := ["news", "daily", "weekly", "newsletter"]

/-- See `techUrlTokens`. -/
def musicUrlTokens : List String := ["music", "band", "album"]

/-- See `techUrlTokens`. -/
def lawUrlTokens : List String := ["objection", "legal", "lawyer"]

/-- One URL token of fallback strategy 4: tokens longer than 3 characters
are matched against the four token tables and the first matching table's
label is appended. -/
def urlFallbackStep (l : List String) (kw : String) : List String :=
  if kw.length > 3 then
    if techUrlTokens.contains kw then l ++ ["tech"]
    else if newsUrlTokens.contains kw then l ++ ["news"]
    else if musicUrlTokens.contains kw then l ++ ["music"]
    else if lawUrlTokens.contains kw then l ++ ["law"]
    else l
  else l

/-- The possessive marker checked by fallback strategy 3: apostrophe,
`s`, space. -/
def posMarker : List Char := [Char.ofNat 39, 's', ' ']

/-- The fallback heuristics (`src/modules/labeling.py:164-214`), applied in
order to the label list accumulated so far. -/
def fallbackAdds (pub : Publication) (urlKws : List String) (l0 : List String) :
    List String :=
  let nl := lowerData pub.name
  let al := lowerData pub.author
  let l1 := if al ≠ [] ∧ nl ≠ [] ∧ hasSub al nl = true then l0 ++ ["writing"] else l0
  let l2 := if al = [] ∨ al = nl then l1 ++ ["writing"] else l1
  let l3 :=
    if hasSub "objection".data nl || hasSub "lawyer".data nl || hasSub "legal".data nl then
      l2 ++ ["law"] else l2
  let l4 :=
    if hasSub "music".data nl || hasSub "band".data nl || hasSub "song".data nl then
      l3 ++ ["music"] else l3
  let l5 :=
    if (hasSub posMarker nl || hasSub "by".data nl) = true ∧ ¬ l4.contains "law" = true ∧
        ¬ l4.contains "music" = true then
      l4 ++ ["writing"] else l4
  urlKws.foldl urlFallbackStep l5

/-- Keep-first deduplication, generalised over the names already seen. -/
def dedupAux (seen : List String) : List String → List String
  | [] => []
  | s :: ts => if seen.contains s then dedupAux seen ts else s :: dedupAux (s :: seen) ts

/-- `list(set(labels))`, as the distinct labels in first-occurrence order
(the subsequent sort makes the set's own order irrelevant). -/
def pyDedup (l : List String) : List String := dedupAux [] l

/-- Insertion into a sorted list of strings. -/
def insertSorted (s : String) : List String → List String
  | [] => [s]
  | t :: ts => if s ≤ t then s :: t :: ts else t :: insertSorted s ts

/-- Insertion sort by the lexicographic order on strings (Python `sorted`
compares strings by code points, as Lean's `String` order does). -/
def sortStrings : List String → List String
  | [] => []
  | s :: ts => insertSorted s (sortStrings ts)

/-- `sorted(list(set(labels)))` (`src/modules/labeling.py:216`). -/
def sortedDedup (l : List String) : List String :=
  sortStrings (pyDedup l)

/-- Labeling of a single publication: the body of the loop of
`auto_label_publications` (`src/modules/labeling.py:95-218`). -/
def autoLabelPub (env : LabelEnv) (analyzeContent skipIfLabeled useCache : Bool)
    (pub : Publication) : Publication :=
  if skipIfLabeled = true ∧ pub.labels ≠ [] then pub
  else
    let l1 := labelsAfterThreshold env analyzeContent useCache pub
    let l2 :=
      if l1.length ≤ 1 then
        fallbackAdds pub (buildTextSources env analyzeContent useCache pub).url_keywords l1
      else l1
    { pub with labels := sortedDedup l2 }

/-- Embedding of `auto_label_publications` (`src/modules/labeling.py:87-220`):
each publication is processed independently; the in-place mutation becomes
a map returning the updated records. -/
def auto_label_publications (env : LabelEnv)
    (analyzeContent skipIfLabeled useCache : Bool) (pubs : List Publication) :
    List Publication :=
  pubs.map (autoLabelPub env analyzeContent skipIfLabeled useCache)

/-- The `KEYWORD_CATEGORIES` table of `src/definitions.py:35-175`. -/
def KEYWORD_CATEGORIES : List (String × List String) :=
  [("tech", ["tech", "ai", "software", "coding", "programming", "data", "developer",
      "machine learning", "startup", "saas", "api", "cloud", "crypto", "blockchain",
      "devops"]),
   ("business", ["business", "finance", "marketing", "economy", "investing", "money",
      "entrepreneur", "leadership", "strategy", "growth", "revenue"]),
   ("news", ["news", "current events", "breaking", "daily", "weekly", "report",
      "dispatch", "briefing", "update", "headlines", "today", "morning", "evening",
      "times", "post", "herald", "tribune", "journal", "gazette", "chronicle",
      "observer", "reporter", "correspondent", "journalism", "journalist", "newsroom",
      "press", "wire", "bulletin", "alert", "digest", "roundup", "wrap", "recap",
      "summary", "international", "global", "world", "national", "local", "regional"]),
   ("politics", ["politics", "policy", "government", "election", "democracy", "law",
      "congress", "senate", "political", "campaign", "voting", "ballot", "republican",
      "democrat", "conservative", "liberal", "progressive"]),
   ("writing", ["writing", "newsletter", "content", "journalism", "media", "publishing",
      "storytelling", "blog", "author", "editor"]),
   ("culture", ["culture", "art", "music", "film", "book", "literature",
      "entertainment", "pop culture", "celebrity", "review"]),
   ("health", ["health", "wellness", "fitness", "mental health", "medical", "nutrition",
      "psychology", "therapy", "mindfulness"]),
   ("science", ["science", "research", "climate", "environment", "physics", "biology",
      "chemistry", "space", "nature", "study"])]

/-- A content-free environment over the real keyword table, for concrete
evaluations. -/
def plainEnv : LabelEnv :=
  { categories := KEYWORD_CATEGORIES, knownAuthors := [],
    fetchContent := fun _ => "", cacheContent := fun _ => none }

/-! ## The content cache (`cache.py`, `config.py`) -/

/-- `Config.cache_expiry_days` (`src/modules/config.py:74`), re-exported as
the module-level `CACHE_EXPIRY_DAYS` (`src/modules/config.py:139`) that
`get_cached_metadata` reads. -/
def CACHE_EXPIRY_DAYS : ℕ := 7

/-- A deserialized cache file: the `timestamp` and `metadata` entries of the
pickled dict (either may be absent from a hand-made file; `save_cached_metadata`
always writes both).  Timestamps and `now` are in days, matching the
`timedelta(days=...)` comparison. -/
structure CacheEntryM where
  timestamp : Option ℚ
  metadata : Option String
deriving DecidableEq

/-- What the filesystem gives `get_cached_metadata` for a URL: no cache
file (`os.path.exists` fails for the directory or the file), a file whose
open/`pickle.load` raises, or a deserialized entry. -/
inductive CacheReadResult where
  | missing
  | unreadable
  | entry (e : CacheEntryM)
deriving DecidableEq

/-- Embedding of `get_cached_metadata(url)` (`src/modules/cache.py:20-52`):
a missing or unreadable entry is a miss (`none`); an entry with a
timestamp is a miss when `now - timestamp > CACHE_EXPIRY_DAYS` days and
otherwise yields its stored metadata. -/
def get_cached_metadata (store : String → CacheReadResult) (now : ℚ) (url : String) :
    Option String :=
  match store url with
  | .missing => none
  | .unreadable => none
  | .entry e =>
    match e.timestamp with
    | some t => if now - t > (CACHE_EXPIRY_DAYS : ℚ) then none else e.metadata
    | none => e.metadata

/-! ## Label filtering (`filter_labels`) -/

/-- Python truthiness of an optional list (`None` and `[]` are falsy). -/
def optTruthy (o : Option (List String)) : Bool :=
  match o with
  | none => false
  | some l => !l.isEmpty

/-- Embedding of `filter_labels(publications, include_labels, exclude_labels)`
(`src/modules/labeling.py:223-243`): when both lists are falsy the input is
returned as is; otherwise each publication with a nonempty label list has
its labels intersected with a truthy include list and then purged of the
members of a truthy exclude list. -/
def filter_labels (pubs : List Publication)
    (include_labels exclude_labels : Option (List String)) : List Publication :=
  if !optTruthy include_labels && !optTruthy exclude_labels then pubs
  else
    pubs.map fun pub =>
      if pub.labels ≠ [] then
        let la :=
          if optTruthy include_labels then
            pub.labels.filter (fun x => (include_labels.getD []).contains x)
          else pub.labels
        let lb :=
          if optTruthy exclude_labels then
            la.filter (fun x => !(exclude_labels.getD []).contains x)
          else la
        { pub with labels := lb }
      else pub

/-- The spec's description of `filter_labels`, per publication: "for each
publication with labels, intersect with `include` if given, then remove
any in `exclude`; publications without labels are untouched" ("given" is
the code's truthiness test: a non-`None`, nonempty list). -/
def filterLabelsSpecPub (include_labels exclude_labels : Option (List String))
    (pub : Publication) : Publication :=
  if pub.labels = [] then pub
  else
    let afterInc :=
      if optTruthy include_labels then
        pub.labels.filter (fun x => (include_labels.getD []).contains x)
      else pub.labels
    let afterExc :=
      if optTruthy exclude_labels then
        afterInc.filter (fun x => !(exclude_labels.getD []).contains x)
      else afterInc
    { pub with labels := afterExc }

/-! ## Duplicate detection (`validation.py`) -/

/-- Embedding of `calculate_similarity(str1, str2)`
(`src/modules/validation.py:47-59`): empty input gives `0.0`, otherwise the
`SequenceMatcher` ratio of the lowercased, stripped strings.  The
`SequenceMatcher.ratio` library call is the injected `ratio` collaborator
(difflib is outside this repository); the claims about `find_duplicates`
hold for every `ratio`. -/
def calculate_similarity (ratio : String → String → ℚ) (str1 str2 : String) : ℚ :=
  if str1 = "" ∨ str2 = "" then 0
  else ratio (String.mk (trimData (lowerData str1))) (String.mk (trimData (lowerData str2)))

/-- Embedding of `find_duplicates(publications, similarity_threshold)`
(`src/modules/validation.py:62-87`): for every index pair `i < j`, the pair
is emitted when the name similarity reaches the threshold or both links
are equal and not `None` (`pub1.get("link") == pub2.get("link") and
pub1.get("link") is not None`). -/
def find_duplicates (ratio : String → String → ℚ) (pubs : List Publication)
    (similarity_threshold : ℚ) : List (ℕ × ℕ × ℚ × Publication × Publication) :=
  (List.range pubs.length).flatMap fun i =>
    (List.range' (i + 1) (pubs.length - (i + 1))).filterMap fun j =>
      let p1 := pubs.getD i default
      let p2 := pubs.getD j default
      let name_similarity := calculate_similarity ratio p1.name p2.name
      if name_similarity ≥ similarity_threshold ∨ (p1.link = p2.link ∧ p1.link ≠ none) then
        some (i, j, name_similarity, p1, p2)
      else none

/-- The claim's flagging rule, verbatim: similarity ratio at or above the
threshold, or the same non-empty link. -/
def specDupFlag (ratio : String → String → ℚ) (similarity_threshold : ℚ)
    (p1 p2 : Publication) : Prop :=
  calculate_similarity ratio p1.name p2.name ≥ similarity_threshold ∨
    (p1.link = p2.link ∧ p1.link ≠ none ∧ p1.link ≠ some "")

instance (ratio : String → String → ℚ) (th : ℚ) (p1 p2 : Publication) :
    Decidable (specDupFlag ratio th p1 p2) := by
  unfold specDupFlag
  exact inferInstance

/-- A stand-in for the `SequenceMatcher` core ratio; the concrete inputs it
is used with below have an empty `name`, which makes `calculate_similarity`
return `0.0` before the core ratio is ever consulted, so any function
would do. -/
def constRatio0 : String → String → ℚ := fun _ _ => 0

/-- Concrete publication: empty name (similarity 0 to anything by the
guard in `calculate_similarity`), empty-string link. -/
def dupP1 : Publication :=
  { name := "", author := "x", link := some "", is_paid := false, labels := [] }

/-- See `dupP1`: a dissimilar name with the same empty-string link. -/
def dupP2 : Publication :=
  { name := "completely different", author := "y", link := some "", is_paid := false,
    labels := [] }

/-- Concrete publication: empty name, shared substack link. -/
def dupQ1 : Publication :=
  { name := "", author := "x", link := some "https://x.substack.com", is_paid := false,
    labels := [] }

/-- See `dupQ1`: a dissimilar name with the same link. -/
def dupQ2 : Publication :=
  { name := "B", author := "y", link := some "https://x.substack.com", is_paid := false,
    labels := [] }

/-! ## Theorems -/

/-- Replacing a publication's labels by themselves is the identity. -/
lemma Publication.set_labels_self (pub : Publication) :
    { pub with labels := pub.labels } = pub := by
  cases pub
  rfl

/-- C6: a cache get returns the stored text iff the entry exists, is
readable, and `now - timestamp ≤ 7` days (the configured expiry window);
an entry 8 days old is a miss and one 6 days old is a hit, and an
unreadable or missing entry is a miss, never an error. -/
theorem claim_C6 :
    (∀ (store : String → CacheReadResult) (now t : ℚ) (url text : String),
        store url = .entry ⟨some t, some text⟩ →
        (get_cached_metadata store now url = some text ↔ now - t ≤ 7)) ∧
    (∀ (store : String → CacheReadResult) (now : ℚ) (url : String),
        store url = .unreadable → get_cached_metadata store now url = none) ∧
    (∀ (store : String → CacheReadResult) (now : ℚ) (url : String),
        store url = .missing → get_cached_metadata store now url = none) ∧
    (∀ (store : String → CacheReadResult) (now t : ℚ) (url text : String),
        store url = .entry ⟨some t, some text⟩ →
        (now - t = 8 → get_cached_metadata store now url = none) ∧
        (now - t = 6 → get_cached_metadata store now url = some text)) := by
  have h7 : ((CACHE_EXPIRY_DAYS : ℕ) : ℚ) = 7 := by norm_num [CACHE_EXPIRY_DAYS]
  have key : ∀ (store : String → CacheReadResult) (now t : ℚ) (url text : String),
      store url = .entry ⟨some t, some text⟩ →
      (get_cached_metadata store now url = some text ↔ now - t ≤ 7) := by
    intro store now t url text h
    unfold get_cached_metadata
    rw [h]
    show (if now - t > ((CACHE_EXPIRY_DAYS : ℕ) : ℚ) then none else some text) = some text ↔
      now - t ≤ 7
    rw [h7]
    split_ifs with hgt
    · exact iff_of_false (by simp) (by linarith)
    · exact iff_of_true rfl (by linarith)
  refine ⟨key, ?_, ?_, ?_⟩
  · intro store now url h
    unfold get_cached_metadata
    rw [h]
  · intro store now url h
    unfold get_cached_metadata
    rw [h]
  · intro store now t url text h
    refine ⟨fun h8 => ?_, fun h6 => (key store now t url text h).mpr (by rw [h6]; norm_num)⟩
    unfold get_cached_metadata
    rw [h]
    show (if now - t > ((CACHE_EXPIRY_DAYS : ℕ) : ℚ) then none else some text) = none
    rw [if_pos (by rw [h8, h7]; norm_num)]

/-- C6 witness: a concrete store whose entry is 6 days old is a hit. -/
theorem claim_C6_witness :
    get_cached_metadata (fun _ => .entry ⟨some 0, some "cached"⟩) 6 "u" = some "cached" :=
  (claim_C6.1 (fun _ => .entry ⟨some 0, some "cached"⟩) 6 0 "u" "cached" rfl).mpr
    (by norm_num)

/-- C7: `filter_labels` is, publication by publication, the spec's
transformation — intersect a nonempty label set with a truthy include list,
then remove the members of a truthy exclude list, leaving label-less
publications untouched — and on labels `{tech, news, paid}` with
include `[tech, news]`, exclude `[news]` the result is exactly `{tech}`. -/
theorem claim_C7 :
    (∀ (pubs : List Publication) (inc exc : Option (List String)),
        filter_labels pubs inc exc = pubs.map (filterLabelsSpecPub inc exc)) ∧
    filter_labels
        [{ name := "p", author := "", link := none, is_paid := true,
           labels := ["tech", "news", "paid"] }]
        (some ["tech", "news"]) (some ["news"]) =
      [{ name := "p", author := "", link := none, is_paid := true,
         labels := ["tech"] }] := by
  constructor
  · intro pubs inc exc
    unfold filter_labels
    by_cases h : (!optTruthy inc && !optTruthy exc) = true
    · rw [if_pos h]
      have h1 : optTruthy inc = false ∧ optTruthy exc = false := by
        revert h
        cases optTruthy inc <;> cases optTruthy exc <;> simp
      have hid : ∀ pub : Publication, filterLabelsSpecPub inc exc pub = pub := by
        intro pub
        unfold filterLabelsSpecPub
        by_cases hl : pub.labels = []
        · rw [if_pos hl]
        · rw [if_neg hl]
          simp only [h1.1, h1.2, Bool.false_eq_true, if_false,
            Publication.set_labels_self]
      induction pubs with
      | nil => rfl
      | cons p ps ih => rw [List.map_cons, hid p, ← ih]
    · rw [if_neg h]
      congr 1
      funext pub
      unfold filterLabelsSpecPub
      by_cases hl : pub.labels = []
      · have hl' : ¬ pub.labels ≠ [] := by simpa using hl
        rw [if_neg hl', if_pos hl]
      · have hl' : pub.labels ≠ [] := hl
        rw [if_pos hl', if_neg hl]
  · decide

/-- One scorer step adds exactly the per-source weight sum of its keyword
to the running score. -/
lemma scoreStep_fst (n a u c b : List Char) (acc : ℚ × List String) (kw : String) :
    (scoreStep n a u c b acc kw).1 = acc.1 + kwWeight n a u c b kw := by
  simp only [scoreStep, kwWeight]
  split_ifs <;> simp <;> ring

/-- The scorer fold accumulates the per-keyword weight sums. -/
lemma foldl_scoreStep_fst (n a u c b : List Char) (kws : List String) :
    ∀ acc : ℚ × List String,
      (kws.foldl (scoreStep n a u c b) acc).1 = acc.1 + (kws.map (kwWeight n a u c b)).sum := by
  induction kws with
  | nil => simp
  | cons k ks ih =>
    intro acc
    rw [List.foldl_cons, ih, scoreStep_fst]
    simp
    ring

/-- Membership in an insertion step. -/
lemma mem_insertSorted {x s : String} {l : List String} :
    x ∈ insertSorted s l ↔ x = s ∨ x ∈ l := by
  induction l with
  | nil => simp [insertSorted]
  | cons t ts ih =>
    unfold insertSorted
    split_ifs with hc
    · simp
    · simp only [List.mem_cons, ih]
      tauto

/-- Sorting does not change membership. -/
lemma mem_sortStrings {x : String} {l : List String} :
    x ∈ sortStrings l ↔ x ∈ l := by
  induction l with
  | nil => simp [sortStrings]
  | cons s ts ih => simp [sortStrings, mem_insertSorted, ih]

/-- Membership in the deduplication accumulator. -/
lemma mem_dedupAux {x : String} :
    ∀ (l seen : List String), x ∈ dedupAux seen l ↔ x ∈ l ∧ ¬ x ∈ seen := by
  intro l
  induction l with
  | nil => simp [dedupAux]
  | cons s ts ih =>
    intro seen
    unfold dedupAux
    split_ifs with hc
    · have hs : s ∈ seen := by simpa using hc
      rw [ih]
      constructor
      · rintro ⟨hx, hn⟩
        exact ⟨List.mem_cons_of_mem _ hx, hn⟩
      · rintro ⟨hx, hn⟩
        rcases List.mem_cons.mp hx with rfl | hx
        · exact absurd hs hn
        · exact ⟨hx, hn⟩
    · have hs : ¬ s ∈ seen := by simpa using hc
      rw [List.mem_cons, ih]
      constructor
      · rintro (rfl | ⟨hx, hn⟩)
        · exact ⟨List.mem_cons_self _ _, hs⟩
        · exact ⟨List.mem_cons_of_mem _ hx, fun hm => hn (List.mem_cons_of_mem _ hm)⟩
      · rintro ⟨hx, hn⟩
        rcases List.mem_cons.mp hx with rfl | hx
        · exact Or.inl rfl
        · by_cases hxs : x = s
          · exact Or.inl hxs
          · refine Or.inr ⟨hx, fun hm => ?_⟩
            rcases List.mem_cons.mp hm with rfl | hm
            · exact hxs rfl
            · exact hn hm

/-- `sorted(list(set(l)))` has the same members as `l`. -/
lemma mem_sortedDedup {x : String} {l : List String} :
    x ∈ sortedDedup l ↔ x ∈ l := by
  unfold sortedDedup pyDedup
  rw [mem_sortStrings, mem_dedupAux]
  simp

/-- Membership in a conditional singleton. -/
lemma mem_ite_singleton {x y : String} {c : Prop} [Decidable c] :
    (x ∈ if c then [y] else ([] : List String)) ↔ c ∧ x = y := by
  split_ifs with hc <;> simp [hc]

/-- Membership in one threshold step. -/
lemma mem_thresholdStep {x : String} {l : List String} {cs : String × ℚ} :
    x ∈ thresholdStep l cs ↔
      x ∈ l ∨ (1 ≤ cs.2 ∧ x = cs.1) ∨ (5 ≤ cs.2 ∧ x = cs.1 ++ "-focused") := by
  unfold thresholdStep
  rw [List.mem_append, List.mem_append, mem_ite_singleton, mem_ite_singleton]
  tauto

/-- Membership in the threshold fold, over any initial list. -/
lemma mem_foldl_thresholdStep {x : String} :
    ∀ (scores : List (String × ℚ)) (l0 : List String),
      x ∈ scores.foldl thresholdStep l0 ↔
        x ∈ l0 ∨ ∃ cs ∈ scores, (1 ≤ cs.2 ∧ x = cs.1) ∨ (5 ≤ cs.2 ∧ x = cs.1 ++ "-focused") := by
  intro scores
  induction scores with
  | nil => simp
  | cons cs rest ih =>
    intro l0
    rw [List.foldl_cons, ih, mem_thresholdStep]
    constructor
    · rintro ((h | hAB) | ⟨c, hc, hP⟩)
      · exact Or.inl h
      · exact Or.inr ⟨cs, List.mem_cons_self _ _, hAB⟩
      · exact Or.inr ⟨c, List.mem_cons_of_mem _ hc, hP⟩
    · rintro (h | ⟨c, hc, hP⟩)
      · exact Or.inl (Or.inl h)
      · rcases List.mem_cons.mp hc with rfl | hc'
        · exact Or.inl (Or.inr hP)
        · exact Or.inr ⟨c, hc', hP⟩

/-- A label is produced by threshold application iff some retained
category explains it (base label at score ≥ 1, `-focused` at score ≥ 5). -/
lemma mem_thresholdAdds {x : String} {scores : List (String × ℚ)} :
    x ∈ thresholdAdds scores ↔
      ∃ cs ∈ scores, (1 ≤ cs.2 ∧ x = cs.1) ∨ (5 ≤ cs.2 ∧ x = cs.1 ++ "-focused") := by
  unfold thresholdAdds
  rw [mem_foldl_thresholdStep]
  simp

/-- A pair is retained in `category_scores` iff it is a category of the
table whose score it is, and that score is positive. -/
lemma mem_categoryScores {c : String} {v : ℚ} {cats : List (String × List String)}
    {ts : TextSources} :
    (c, v) ∈ categoryScores cats ts ↔
      ∃ kws, (c, kws) ∈ cats ∧ v = (calculate_category_score c kws ts).1 ∧ 0 < v := by
  unfold categoryScores
  rw [List.mem_filterMap]
  constructor
  · rintro ⟨⟨c', kws⟩, hck, heq⟩
    dsimp only at heq
    split_ifs at heq with hs
    rw [Option.some_inj, Prod.mk.injEq] at heq
    obtain ⟨rfl, rfl⟩ := heq
    exact ⟨kws, hck, rfl, hs⟩
  · rintro ⟨kws, hmem, rfl, hv⟩
    exact ⟨(c, kws), hmem, by dsimp only; rw [if_pos hv]⟩

/-- Fallback strategy 4 never removes labels. -/
lemma mem_urlFallbackStep_of_mem {x : String} {l : List String} {kw : String}
    (h : x ∈ l) : x ∈ urlFallbackStep l kw := by
  unfold urlFallbackStep
  split_ifs <;> simp [h]

/-- The strategy-4 fold never removes labels. -/
lemma mem_foldl_urlFallbackStep_of_mem {x : String} :
    ∀ (kws : List String) (l : List String), x ∈ l → x ∈ kws.foldl urlFallbackStep l := by
  intro kws
  induction kws with
  | nil => intro l h; simpa
  | cons k ks ih => intro l h; exact ih _ (mem_urlFallbackStep_of_mem h)

/-- The fallback heuristics never remove labels. -/
lemma mem_fallbackAdds_of_mem {x : String} {pub : Publication} {urlKws : List String}
    {l0 : List String} (h : x ∈ l0) : x ∈ fallbackAdds pub urlKws l0 := by
  simp only [fallbackAdds]
  apply mem_foldl_urlFallbackStep_of_mem
  split_ifs <;> simp [h]

/-- The labels assigned to a publication that is not skipped. -/
lemma autoLabelPub_labels {env : LabelEnv} {a sif u : Bool} {pub : Publication}
    (hns : sif = true → pub.labels = []) :
    (autoLabelPub env a sif u pub).labels =
      sortedDedup
        (if (labelsAfterThreshold env a u pub).length ≤ 1 then
          fallbackAdds pub (buildTextSources env a u pub).url_keywords
            (labelsAfterThreshold env a u pub)
        else labelsAfterThreshold env a u pub) := by
  unfold autoLabelPub
  have hcond : ¬ (sif = true ∧ pub.labels ≠ []) := by
    rintro ⟨hsif, hlab⟩
    exact hlab (hns hsif)
  rw [if_neg hcond]

/-- A category of the table whose score reaches 1 puts its base label on a
non-skipped publication. -/
lemma base_label_mem (env : LabelEnv) (a sif u : Bool) (pub : Publication)
    (hns : sif = true → pub.labels = []) {cat : String} {kws : List String}
    (hmem : (cat, kws) ∈ env.categories)
    (h1 : 1 ≤ (calculate_category_score cat kws (buildTextSources env a u pub)).1) :
    cat ∈ (autoLabelPub env a sif u pub).labels := by
  rw [autoLabelPub_labels hns, mem_sortedDedup]
  have hthr : cat ∈ thresholdAdds (categoryScores env.categories
      (buildTextSources env a u pub)) := by
    rw [mem_thresholdAdds]
    exact ⟨(cat, (calculate_category_score cat kws (buildTextSources env a u pub)).1),
      mem_categoryScores.mpr ⟨kws, hmem, rfl, by linarith⟩, Or.inl ⟨h1, rfl⟩⟩
  have hl1 : cat ∈ labelsAfterThreshold env a u pub := by
    unfold labelsAfterThreshold
    exact List.mem_cons_of_mem _ hthr
  split_ifs with hlen
  · exact mem_fallbackAdds_of_mem hl1
  · exact hl1

/-- A category of the table whose score reaches 5 puts its `-focused`
label on a non-skipped publication. -/
lemma focused_label_mem (env : LabelEnv) (a sif u : Bool) (pub : Publication)
    (hns : sif = true → pub.labels = []) {cat : String} {kws : List String}
    (hmem : (cat, kws) ∈ env.categories)
    (h5 : 5 ≤ (calculate_category_score cat kws (buildTextSources env a u pub)).1) :
    cat ++ "-focused" ∈ (autoLabelPub env a sif u pub).labels := by
  rw [autoLabelPub_labels hns, mem_sortedDedup]
  have hthr : cat ++ "-focused" ∈ thresholdAdds (categoryScores env.categories
      (buildTextSources env a u pub)) := by
    rw [mem_thresholdAdds]
    exact ⟨(cat, (calculate_category_score cat kws (buildTextSources env a u pub)).1),
      mem_categoryScores.mpr ⟨kws, hmem, rfl, by linarith⟩, Or.inr ⟨h5, rfl⟩⟩
  have hl1 : cat ++ "-focused" ∈ labelsAfterThreshold env a u pub := by
    unfold labelsAfterThreshold
    exact List.mem_cons_of_mem _ hthr
  split_ifs with hlen
  · exact mem_fallbackAdds_of_mem hl1
  · exact hl1

/-- In a table with no duplicate category names, a name determines its
keyword list. -/
lemma keys_nodup_unique {cats : List (String × List String)}
    (hnd : (cats.map Prod.fst).Nodup) {c : String} {k1 k2 : List String}
    (h1 : (c, k1) ∈ cats) (h2 : (c, k2) ∈ cats) : k1 = k2 := by
  induction cats with
  | nil => cases h1
  | cons p rest ih =>
    rw [List.map_cons, List.nodup_cons] at hnd
    rcases List.mem_cons.mp h1 with rfl | h1'
    · rcases List.mem_cons.mp h2 with heq | h2'
      · exact (Prod.ext_iff.mp heq.symm).2
      · exact absurd (List.mem_map_of_mem Prod.fst h2') hnd.1
    · rcases List.mem_cons.mp h2 with rfl | h2'
      · exact absurd (List.mem_map_of_mem Prod.fst h1') hnd.1
      · exact ih hnd.2 h1' h2'

/-- Appending the same suffix is injective on strings. -/
lemma str_append_right_cancel {a b suf : String} (h : a ++ suf = b ++ suf) : a = b := by
  have hd : a.data ++ suf.data = b.data ++ suf.data := by
    rw [← String.data_append, ← String.data_append, h]
  have hdata : a.data = b.data := List.append_cancel_right hd
  exact congrArg String.mk hdata

/-- A `-focused` label is never the payment label. -/
lemma focused_ne_payment (cat : String) (pub : Publication) :
    cat ++ "-focused" ≠ paymentLabel pub := by
  unfold paymentLabel
  have h8 : ("-focused" : String).length = 8 := rfl
  have h4a : ("paid" : String).length = 4 := rfl
  have h4b : ("free" : String).length = 4 := rfl
  split_ifs <;> intro h <;> have hl := congrArg String.length h <;>
    rw [String.length_append, h8] at hl <;> simp only [h4a, h4b] at hl <;> omega

/-- A category of the table with score ≥ 1 yields its base label in the
threshold step. -/
lemma base_mem_thresholdAdds {env : LabelEnv} {a u : Bool} {pub : Publication}
    {cat : String} {kws : List String} (hmem : (cat, kws) ∈ env.categories)
    (h1 : 1 ≤ (calculate_category_score cat kws (buildTextSources env a u pub)).1) :
    cat ∈ thresholdAdds (categoryScores env.categories (buildTextSources env a u pub)) := by
  rw [mem_thresholdAdds]
  exact ⟨(cat, (calculate_category_score cat kws (buildTextSources env a u pub)).1),
    mem_categoryScores.mpr ⟨kws, hmem, rfl, by linarith⟩, Or.inl ⟨h1, rfl⟩⟩

/-- A category with score ≥ 1 makes the post-threshold label list longer
than the single payment label. -/
lemma lat_length_gt_one {env : LabelEnv} {a u : Bool} {pub : Publication}
    {cat : String} {kws : List String} (hmem : (cat, kws) ∈ env.categories)
    (h1 : 1 ≤ (calculate_category_score cat kws (buildTextSources env a u pub)).1) :
    ¬ (labelsAfterThreshold env a u pub).length ≤ 1 := by
  have hthr := base_mem_thresholdAdds hmem h1
  unfold labelsAfterThreshold
  simp only [List.length_cons]
  have := List.length_pos.mpr (List.ne_nil_of_mem hthr)
  omega

/-- Base-but-not-focused: a category scoring in `[1, 5)` never yields its
`-focused` label, provided the category names are unique and none of them
is literally the `-focused` name. -/
lemma focused_not_mem_of_lt5 (env : LabelEnv) (a sif u : Bool) (pub : Publication)
    (hns : sif = true → pub.labels = []) {cat : String} {kws : List String}
    (hmem : (cat, kws) ∈ env.categories)
    (hnd : (env.categories.map Prod.fst).Nodup)
    (hfresh : ∀ ck ∈ env.categories, ck.1 ≠ cat ++ "-focused")
    (h1 : 1 ≤ (calculate_category_score cat kws (buildTextSources env a u pub)).1)
    (h5 : (calculate_category_score cat kws (buildTextSources env a u pub)).1 < 5) :
    cat ++ "-focused" ∉ (autoLabelPub env a sif u pub).labels := by
  rw [autoLabelPub_labels hns, mem_sortedDedup]
  rw [if_neg (lat_length_gt_one hmem h1)]
  intro hx
  unfold labelsAfterThreshold at hx
  rcases List.mem_cons.mp hx with heq | hx'
  · exact focused_ne_payment cat pub heq
  · rw [mem_thresholdAdds] at hx'
    obtain ⟨⟨c', v⟩, hcs, hor⟩ := hx'
    obtain ⟨kws', hmem', hv, hvpos⟩ := mem_categoryScores.mp hcs
    rcases hor with ⟨_, heq⟩ | ⟨h5', heq⟩
    · exact hfresh (c', kws') hmem' heq.symm
    · have hc : cat = c' := str_append_right_cancel heq
      subst hc
      have hkk : kws' = kws := keys_nodup_unique hnd hmem' hmem
      rw [hkk] at hv
      rw [hv] at h5'
      linarith

/-- `sorted(list(set(l)))` of a list with a member is nonempty. -/
lemma sortedDedup_ne_nil {x : String} {l : List String} (h : x ∈ l) :
    sortedDedup l ≠ [] :=
  List.ne_nil_of_mem (mem_sortedDedup.mpr h)

/-- A publication that already carries a label is returned unchanged when
skip-if-labeled is on. -/
lemma autoLabelPub_skip {env : LabelEnv} {a u : Bool} {pub : Publication}
    (h : pub.labels ≠ []) : autoLabelPub env a true u pub = pub := by
  unfold autoLabelPub
  rw [if_pos ⟨rfl, h⟩]

/-- Every publication leaves `autoLabelPub` with at least one label (the
payment label survives dedup and sort; a skipped publication kept its
nonempty labels). -/
lemma autoLabelPub_labels_ne_nil (env : LabelEnv) (a sif u : Bool) (pub : Publication) :
    (autoLabelPub env a sif u pub).labels ≠ [] := by
  by_cases h : sif = true ∧ pub.labels ≠ []
  · unfold autoLabelPub
    rw [if_pos h]
    exact h.2
  · have hns : sif = true → pub.labels = [] := by
      intro hs
      by_contra hlab
      exact h ⟨hs, hlab⟩
    rw [autoLabelPub_labels hns]
    have hpayl : paymentLabel pub ∈ labelsAfterThreshold env a u pub := by
      unfold labelsAfterThreshold
      exact List.mem_cons_self _ _
    apply sortedDedup_ne_nil
    split_ifs with hlen
    · exact mem_fallbackAdds_of_mem hpayl
    · exact hpayl

/-- The category score is the sum over the keywords of the per-keyword
weight sums. -/
lemma calc_score_eq_weightSum (cat : String) (kws : List String) (ts : TextSources) :
    (calculate_category_score cat kws ts).1 = (kws.map (keywordSourceScore ts)).sum := by
  unfold calculate_category_score
  rw [show (kws.map (keywordSourceScore ts)).sum =
      (kws.map (kwWeight (lowerData ts.name) (lowerData ts.author)
        ((joinSpace ts.url_keywords).map Char.toLower) (lowerData ts.content)
        (lowerData ts.author_bio))).sum from rfl]
  rw [foldl_scoreStep_fst]
  ring

/-- C3: the category score is the sum, over the keywords, of the sum of
the fixed per-source weights of that keyword's hits (sources stack
independently), and a keyword present in both `name` and `content`
contributes `3 + 1.5 = 4.5`, not the maximum of the two. -/
theorem claim_C3 :
    (∀ (cat : String) (kws : List String) (ts : TextSources),
        (calculate_category_score cat kws ts).1 = (kws.map (keywordSourceScore ts)).sum) ∧
    (calculate_category_score "tech" ["data"]
        { emptyTS with name := "Data stuff", content := "big data talk" }).1 = 3 + 3 / 2 ∧
    ((3 : ℚ) + 3 / 2 = 9 / 2) ∧ ((9 / 2 : ℚ) ≠ 3) :=
  ⟨calc_score_eq_weightSum, by with_unfolding_all decide, by norm_num, by norm_num⟩

/-- C2: for a scored (non-skipped) publication and any category of a table
with distinct names none of which is the `-focused` name, score ≥ 1 adds
the base label, score ≥ 5 additionally adds the `-focused` label, and a
score in `[1, 5)` (such as exactly 1.0 or 4.999) yields the base label
only; on a single retained category the threshold step at score exactly
1.0 emits the base label only, at 5.0 both, at 4.999 the base label
only. -/
theorem claim_C2 :
    (∀ (env : LabelEnv) (a sif u : Bool) (pub : Publication) (cat : String)
        (kws : List String),
        (sif = true → pub.labels = []) →
        (cat, kws) ∈ env.categories →
        (env.categories.map Prod.fst).Nodup →
        (∀ ck ∈ env.categories, ck.1 ≠ cat ++ "-focused") →
        (1 ≤ (calculate_category_score cat kws (buildTextSources env a u pub)).1 →
            cat ∈ (autoLabelPub env a sif u pub).labels) ∧
          (5 ≤ (calculate_category_score cat kws (buildTextSources env a u pub)).1 →
            cat ++ "-focused" ∈ (autoLabelPub env a sif u pub).labels) ∧
          (1 ≤ (calculate_category_score cat kws (buildTextSources env a u pub)).1 ∧
              (calculate_category_score cat kws (buildTextSources env a u pub)).1 < 5 →
            cat ++ "-focused" ∉ (autoLabelPub env a sif u pub).labels)) ∧
    (∀ c : String,
        thresholdStep [] (c, 1) = [c] ∧
        thresholdStep [] (c, 5) = [c, c ++ "-focused"] ∧
        thresholdStep [] (c, 4999 / 1000) = [c]) := by
  constructor
  · intro env a sif u pub cat kws hns hmem hnd hfresh
    exact ⟨fun h1 => base_label_mem env a sif u pub hns hmem h1,
      fun h5 => focused_label_mem env a sif u pub hns hmem h5,
      fun h15 => focused_not_mem_of_lt5 env a sif u pub hns hmem hnd hfresh h15.1 h15.2⟩
  · intro c
    refine ⟨?_, ?_, ?_⟩ <;> unfold thresholdStep <;> norm_num

/-- C2 witness: a keyword hitting only the author source scores exactly 1,
so the base label appears and the `-focused` label does not. -/
theorem claim_C2_witness :
    "catx" ∈ (autoLabelPub ⟨[("catx", ["alpha"])], [], fun _ => "", fun _ => none⟩
        false true true
        { name := "", author := "alpha guy", link := none, is_paid := false,
          labels := [] }).labels ∧
    "catx" ++ "-focused" ∉ (autoLabelPub ⟨[("catx", ["alpha"])], [], fun _ => "",
        fun _ => none⟩ false true true
        { name := "", author := "alpha guy", link := none, is_paid := false,
          labels := [] }).labels := by
  have h := (claim_C2.1 ⟨[("catx", ["alpha"])], [], fun _ => "", fun _ => none⟩
      false true true
      { name := "", author := "alpha guy", link := none, is_paid := false, labels := [] }
      "catx" ["alpha"] (fun _ => rfl) (List.mem_cons_self _ _) (by decide) (by decide))
  exact ⟨h.1 (by with_unfolding_all decide),
    h.2.2 ⟨by with_unfolding_all decide, by with_unfolding_all decide⟩⟩

/-- C4: for a non-skipped publication, if any category scores ≥ 1 the
fallback branch is not taken (the labels are exactly the sorted dedup of
the post-threshold list), and the fallback branch is taken exactly when
the post-threshold list is the single payment label. -/
theorem claim_C4 :
    ∀ (env : LabelEnv) (a sif u : Bool) (pub : Publication),
      (sif = true → pub.labels = []) →
      ((∃ ck ∈ env.categories,
          1 ≤ (calculate_category_score ck.1 ck.2 (buildTextSources env a u pub)).1) →
        ¬ (labelsAfterThreshold env a u pub).length ≤ 1 ∧
          (autoLabelPub env a sif u pub).labels =
            sortedDedup (labelsAfterThreshold env a u pub)) ∧
      ((labelsAfterThreshold env a u pub).length ≤ 1 ↔
        labelsAfterThreshold env a u pub = [paymentLabel pub]) := by
  intro env a sif u pub hns
  constructor
  · rintro ⟨⟨cat, kws⟩, hmem, h1⟩
    have hlen := lat_length_gt_one hmem h1
    refine ⟨hlen, ?_⟩
    rw [autoLabelPub_labels hns, if_neg hlen]
  · unfold labelsAfterThreshold
    simp only [List.length_cons, List.cons.injEq, true_and]
    constructor
    · intro h
      exact List.length_eq_zero.mp (by omega)
    · intro h
      simp [h]

/-- C4 witness: with one category scoring 1 the fallback branch is
skipped. -/
theorem claim_C4_witness :
    ¬ (labelsAfterThreshold ⟨[("caty", ["beta"])], [], fun _ => "", fun _ => none⟩
        false true
        { name := "", author := "beta person", link := none, is_paid := false,
          labels := [] }).length ≤ 1 ∧
    (autoLabelPub ⟨[("caty", ["beta"])], [], fun _ => "", fun _ => none⟩
        false true true
        { name := "", author := "beta person", link := none, is_paid := false,
          labels := [] }).labels =
      sortedDedup (labelsAfterThreshold ⟨[("caty", ["beta"])], [], fun _ => "",
        fun _ => none⟩ false true
        { name := "", author := "beta person", link := none, is_paid := false,
          labels := [] }) :=
  (claim_C4 ⟨[("caty", ["beta"])], [], fun _ => "", fun _ => none⟩ false true true
      { name := "", author := "beta person", link := none, is_paid := false,
        labels := [] } (fun _ => rfl)).1
    ⟨("caty", ["beta"]), List.mem_cons_self _ _, by with_unfolding_all decide⟩

/-- C5: with skip-if-labeled on, a second run of `auto_label_publications`
over the output of a first run changes nothing — every labeled publication
is skipped, and the first run labels every publication. -/
theorem claim_C5 :
    ∀ (env : LabelEnv) (a u : Bool) (pubs : List Publication),
      auto_label_publications env a true u (auto_label_publications env a true u pubs) =
        auto_label_publications env a true u pubs := by
  intro env a u pubs
  unfold auto_label_publications
  induction pubs with
  | nil => rfl
  | cons p ps ih =>
    simp only [List.map_cons]
    rw [autoLabelPub_skip (autoLabelPub_labels_ne_nil env a true u p), ih]

/-- Per-source weights are nonnegative. -/
lemma kwWeight_nonneg (n a u c b : List Char) (kw : String) :
    0 ≤ kwWeight n a u c b kw := by
  unfold kwWeight
  split_ifs <;> norm_num

/-- The per-keyword weight is 0 or at least 1 (the smallest weight is 1). -/
lemma kwWeight_eq_zero_or_one_le (n a u c b : List Char) (kw : String) :
    kwWeight n a u c b kw = 0 ∨ 1 ≤ kwWeight n a u c b kw := by
  unfold kwWeight
  split_ifs <;> norm_num

/-- A sum of rationals that are each 0 or ≥ 1 is itself 0 or ≥ 1. -/
lemma sum_eq_zero_or_one_le {l : List ℚ} (h0 : ∀ x ∈ l, 0 ≤ x)
    (h1 : ∀ x ∈ l, x = 0 ∨ 1 ≤ x) : l.sum = 0 ∨ 1 ≤ l.sum := by
  induction l with
  | nil => simp
  | cons x xs ih =>
    have hx0 := h0 x (List.mem_cons_self _ _)
    have hxs0 : 0 ≤ xs.sum :=
      List.sum_nonneg fun y hy => h0 y (List.mem_cons_of_mem _ hy)
    rcases h1 x (List.mem_cons_self _ _) with hx | hx
    · rcases ih (fun y hy => h0 y (List.mem_cons_of_mem _ hy))
          (fun y hy => h1 y (List.mem_cons_of_mem _ hy)) with h | h
      · left
        rw [List.sum_cons, hx, h, add_zero]
      · right
        rw [List.sum_cons]
        linarith
    · right
      rw [List.sum_cons]
      linarith

/-- C10: a category score is never strictly between 0 and 1 — it is 0 or
at least 1 — so every category retained by the orchestrator's `score > 0`
filter meets the ≥ 1 threshold and its base label reaches a non-skipped
publication. -/
theorem claim_C10 :
    (∀ (cat : String) (kws : List String) (ts : TextSources),
        (calculate_category_score cat kws ts).1 = 0 ∨
          1 ≤ (calculate_category_score cat kws ts).1) ∧
    (∀ (env : LabelEnv) (a sif u : Bool) (pub : Publication) (cat : String)
        (kws : List String),
        (sif = true → pub.labels = []) →
        (cat, kws) ∈ env.categories →
        0 < (calculate_category_score cat kws (buildTextSources env a u pub)).1 →
        cat ∈ (autoLabelPub env a sif u pub).labels) := by
  have part1 : ∀ (cat : String) (kws : List String) (ts : TextSources),
      (calculate_category_score cat kws ts).1 = 0 ∨
        1 ≤ (calculate_category_score cat kws ts).1 := by
    intro cat kws ts
    rw [calc_score_eq_weightSum cat kws ts]
    apply sum_eq_zero_or_one_le
    · intro x hx
      obtain ⟨kw, _, rfl⟩ := List.mem_map.mp hx
      exact kwWeight_nonneg _ _ _ _ _ _
    · intro x hx
      obtain ⟨kw, _, rfl⟩ := List.mem_map.mp hx
      exact kwWeight_eq_zero_or_one_le _ _ _ _ _ _
  refine ⟨part1, ?_⟩
  intro env a sif u pub cat kws hns hmem hpos
  have h1 : 1 ≤ (calculate_category_score cat kws (buildTextSources env a u pub)).1 := by
    rcases part1 cat kws (buildTextSources env a u pub) with h | h
    · rw [h] at hpos
      exact absurd hpos (by norm_num)
    · exact h
  exact base_label_mem env a sif u pub hns hmem h1

/-- C10 witness: a keyword hitting only the author source gives a positive
score, and the base label appears. -/
theorem claim_C10_witness :
    "catz" ∈ (autoLabelPub ⟨[("catz", ["gamma"])], [], fun _ => "", fun _ => none⟩
        false true true
        { name := "", author := "gamma person", link := none, is_paid := false,
          labels := [] }).labels :=
  claim_C10.2 ⟨[("catz", ["gamma"])], [], fun _ => "", fun _ => none⟩ false true true
    { name := "", author := "gamma person", link := none, is_paid := false,
      labels := [] }
    "catz" ["gamma"] (fun _ => rfl) (List.mem_cons_self _ _)
    (by with_unfolding_all decide)

/-- A label added by some strategy-4 step for a token of the URL token
list survives to the end of the fold. -/
lemma label_mem_foldl_urlFallback {t lbl : String}
    (hstep : ∀ l : List String, lbl ∈ urlFallbackStep l t) :
    ∀ (kws : List String) (l : List String), t ∈ kws →
      lbl ∈ kws.foldl urlFallbackStep l := by
  intro kws
  induction kws with
  | nil => intro l h; cases h
  | cons k ks ih =>
    intro l h
    rcases List.mem_cons.mp h with rfl | h'
    · exact mem_foldl_urlFallbackStep_of_mem ks _ (hstep l)
    · exact ih _ h'

/-- When the fallback branch runs, a label guaranteed by some URL token
reaches the publication's final labels. -/
lemma fallback_token_label {env : LabelEnv} {a sif u : Bool} {pub : Publication}
    {t lbl : String} (hns : sif = true → pub.labels = [])
    (hlen1 : (labelsAfterThreshold env a u pub).length ≤ 1)
    (ht : t ∈ extract_url_keywords (pub.link.getD ""))
    (hstep : ∀ l : List String, lbl ∈ urlFallbackStep l t) :
    lbl ∈ (autoLabelPub env a sif u pub).labels := by
  rw [autoLabelPub_labels hns, if_pos hlen1, mem_sortedDedup]
  simp only [fallbackAdds]
  exact label_mem_foldl_urlFallback hstep _ _ ht

/-- C9 (amended): each URL token longer than 3 characters is matched
against the fixed token tables and a hit adds the table's label — but the
length guard means the 3-character token `dev` can never hit; tokens such
as `code` or `tech` do add `tech`. -/
theorem claim_C9 :
    ∀ (env : LabelEnv) (a sif u : Bool) (pub : Publication) (t : String),
      (sif = true → pub.labels = []) →
      (labelsAfterThreshold env a u pub).length ≤ 1 →
      t ∈ extract_url_keywords (pub.link.getD "") →
      3 < t.length →
      (t ∈ techUrlTokens → "tech" ∈ (autoLabelPub env a sif u pub).labels) ∧
      (t ∈ newsUrlTokens → "news" ∈ (autoLabelPub env a sif u pub).labels) ∧
      (t ∈ musicUrlTokens → "music" ∈ (autoLabelPub env a sif u pub).labels) ∧
      (t ∈ lawUrlTokens → "law" ∈ (autoLabelPub env a sif u pub).labels) := by
  intro env a sif u pub t hns hlen1 ht htlen
  refine ⟨fun hm => ?_, fun hm => ?_, fun hm => ?_, fun hm => ?_⟩ <;>
    refine fallback_token_label hns hlen1 ht fun l => ?_ <;>
    unfold urlFallbackStep <;>
    rw [if_pos htlen]
  · rw [if_pos (by simpa using hm)]
    simp
  · rw [if_neg (by fin_cases hm <;> decide), if_pos (by simpa using hm)]
    simp
  · rw [if_neg (by fin_cases hm <;> decide), if_neg (by fin_cases hm <;> decide),
      if_pos (by simpa using hm)]
    simp
  · rw [if_neg (by fin_cases hm <;> decide), if_neg (by fin_cases hm <;> decide),
      if_neg (by fin_cases hm <;> decide), if_pos (by simpa using hm)]
    simp

/-- C9 witness: the 4-character token `code` adds `tech` to a publication
that reached the fallback step. -/
theorem claim_C9_witness :
    "tech" ∈ (autoLabelPub plainEnv false true true
        { name := "q", author := "q", link := some "https://code.substack.com",
          is_paid := false, labels := [] }).labels :=
  ((claim_C9 plainEnv false true true
      { name := "q", author := "q", link := some "https://code.substack.com",
        is_paid := false, labels := [] } "code"
      (fun _ => rfl) (by with_unfolding_all decide) (by decide) (by decide)).1
    (by decide))

/-- C9 counterexample: the publication `q` with link
`https://dev.substack.com` has URL token `dev` and reaches the fallback
step, yet does not receive `tech` — the token-table check only runs for
tokens longer than 3 characters, and `dev` has exactly 3. -/
theorem claim_C9_counterexample :
    "dev" ∈ extract_url_keywords "https://dev.substack.com" ∧
    (labelsAfterThreshold plainEnv false true
        { name := "q", author := "q", link := some "https://dev.substack.com",
          is_paid := false, labels := [] }).length ≤ 1 ∧
    "tech" ∉ (autoLabelPub plainEnv false true true
        { name := "q", author := "q", link := some "https://dev.substack.com",
          is_paid := false, labels := [] }).labels :=
  ⟨by decide, by with_unfolding_all decide, by with_unfolding_all decide⟩

/-- C8 (amended): for every pair `i < j`, `find_duplicates` flags the pair
exactly when the normalized name-similarity ratio reaches the threshold or
both links are equal and present (not `None`) — a shared empty-string link
also flags. -/
theorem claim_C8 :
    ∀ (ratio : String → String → ℚ) (pubs : List Publication) (th : ℚ) (i j : ℕ),
      i < j → j < pubs.length →
      ((i, j, calculate_similarity ratio (pubs.getD i default).name
          (pubs.getD j default).name, pubs.getD i default, pubs.getD j default) ∈
          find_duplicates ratio pubs th ↔
        (calculate_similarity ratio (pubs.getD i default).name
            (pubs.getD j default).name ≥ th ∨
          ((pubs.getD i default).link = (pubs.getD j default).link ∧
            (pubs.getD i default).link ≠ none))) := by
  intro ratio pubs th i j hij hj
  unfold find_duplicates
  rw [List.mem_flatMap]
  constructor
  · rintro ⟨i', hi', hmem⟩
    rw [List.mem_filterMap] at hmem
    obtain ⟨j', hj', heq⟩ := hmem
    dsimp only at heq
    split_ifs at heq with hcond
    rw [Option.some_inj] at heq
    have hii : i' = i := congrArg (fun x => x.1) heq
    have hjj : j' = j := congrArg (fun x => x.2.1) heq
    subst hii
    subst hjj
    exact hcond
  · intro hcond
    refine ⟨i, ?_, ?_⟩
    · rw [List.mem_range]
      omega
    · rw [List.mem_filterMap]
      refine ⟨j, ?_, ?_⟩
      · rw [List.mem_range'_1]
        omega
      · dsimp only
        rw [if_pos hcond]

/-- C8 witness: two publications sharing `link="https://x.substack.com"`
with dissimilar names are flagged via the exact-URL rule. -/
theorem claim_C8_witness :
    (0, 1, calculate_similarity constRatio0 dupQ1.name dupQ2.name, dupQ1, dupQ2) ∈
      find_duplicates constRatio0 [dupQ1, dupQ2] (85 / 100) :=
  (claim_C8 constRatio0 [dupQ1, dupQ2] (85 / 100) 0 1 (by norm_num) (by norm_num)).mpr
    (Or.inr ⟨rfl, by decide⟩)

/-- C8 counterexample: two publications whose links are both the empty
string `""` (present but empty) and whose name similarity is 0 are flagged
by the code — the code tests `is not None`, not non-emptiness — while the
claim's rule (similarity ≥ threshold or same *non-empty* link) does not
flag them. -/
theorem claim_C8_counterexample :
    find_duplicates constRatio0 [dupP1, dupP2] (85 / 100) =
      [(0, 1, 0, dupP1, dupP2)] ∧
    ¬ specDupFlag constRatio0 (85 / 100) dupP1 dupP2 := by
  constructor
  · with_unfolding_all decide
  · with_unfolding_all decide

/-- A word character is not a whitespace character. -/
lemma wordChar_not_ws {c : Char} (h : isWordChar c = true) : isWsChar c = false := by
  cases hws : isWsChar c
  · rfl
  · exfalso
    unfold isWsChar at hws
    simp only [Bool.or_eq_true, beq_iff_eq] at hws
    rcases hws with ((((h1 | h1) | h1) | h1) | h1) | h1 <;> subst h1 <;>
      exact absurd h (by decide)

/-- `matchChars` succeeds exactly on inputs starting with the word. -/
lemma matchChars_eq_some : ∀ (w s r : List Char), matchChars w s = some r ↔ s = w ++ r := by
  intro w
  induction w with
  | nil =>
    intro s r
    simp [matchChars]
  | cons c cs ih =>
    intro s r
    cases s with
    | nil => simp [matchChars]
    | cons d ds =>
      unfold matchChars
      split_ifs with hc
      · have hcd : c = d := eq_of_beq hc
        subst hcd
        rw [ih]
        simp
      · have hcd : ¬ c = d := fun h => hc (by simp [h])
        apply iff_of_false (by simp)
        intro h
        injection h with h1 _
        exact hcd h1.symm

/-- Every list splits as its longest `p`-prefix and its `dropWhile`. -/
lemma dropWhile_decomp (p : Char → Bool) :
    ∀ s : List Char, ∃ gap, s = gap ++ s.dropWhile p ∧ ∀ c ∈ gap, p c = true := by
  intro s
  induction s with
  | nil => exact ⟨[], rfl, by simp⟩
  | cons c t ih =>
    by_cases hc : p c = true
    · obtain ⟨gap, hgt, hall⟩ := ih
      refine ⟨c :: gap, ?_, ?_⟩
      · rw [List.dropWhile_cons, if_pos hc]
        exact congrArg (List.cons c) hgt
      · intro x hx
        rcases List.mem_cons.mp hx with rfl | hx
        · exact hc
        · exact hall x hx
    · refine ⟨[], ?_, by simp⟩
      rw [List.dropWhile_cons, if_neg hc, List.nil_append]

/-- The head of a `dropWhile` residue fails the predicate. -/
lemma head_dropWhile_not (p : Char → Bool) :
    ∀ (s : List Char) (c : Char), (s.dropWhile p).head? = some c → p c = false := by
  intro s
  induction s with
  | nil =>
    intro c h
    simp [List.dropWhile] at h
  | cons d t ih =>
    intro c h
    rw [List.dropWhile_cons] at h
    split_ifs at h with hd
    · exact ih c h
    · rw [List.head?_cons, Option.some_inj] at h
      subst h
      simpa using hd

/-- `dropWhile` of a `p`-run followed by a non-`p` head is that residue. -/
lemma dropWhile_of_decomp (p : Char → Bool) :
    ∀ (gap r : List Char), (∀ c ∈ gap, p c = true) →
      (∀ c, r.head? = some c → p c = false) → (gap ++ r).dropWhile p = r := by
  intro gap
  induction gap with
  | nil =>
    intro r _ hr
    cases r with
    | nil => rfl
    | cons c t =>
      rw [List.nil_append, List.dropWhile_cons, if_neg]
      simp [hr c rfl]
  | cons c gap' ih =>
    intro r hg hr
    rw [List.cons_append, List.dropWhile_cons, if_pos (hg c (List.mem_cons_self _ _))]
    exact ih r (fun x hx => hg x (List.mem_cons_of_mem _ hx)) hr

/-- `matchGap` succeeds exactly when the input starts with a nonempty
whitespace run whose maximal extent ends at the returned residue. -/
lemma matchGap_eq_some : ∀ s r : List Char,
    matchGap s = some r ↔
      ∃ gap, gap ≠ [] ∧ (∀ c ∈ gap, isWsChar c = true) ∧ s = gap ++ r ∧
        (∀ c, r.head? = some c → isWsChar c = false) := by
  intro s r
  cases s with
  | nil =>
    apply iff_of_false (by simp [matchGap])
    rintro ⟨gap, hne, _, heq, _⟩
    exact hne (List.append_eq_nil.mp heq.symm).1
  | cons c t =>
    rw [show matchGap (c :: t) =
        (if isWsChar c = true then some (t.dropWhile isWsChar) else none) from rfl]
    split_ifs with hc
    · rw [Option.some_inj]
      constructor
      · rintro rfl
        obtain ⟨gap, hgt, hall⟩ := dropWhile_decomp isWsChar t
        refine ⟨c :: gap, by simp, ?_, ?_, ?_⟩
        · intro x hx
          rcases List.mem_cons.mp hx with rfl | hx
          · exact hc
          · exact hall x hx
        · rw [List.cons_append, ← hgt]
        · intro x hxh
          exact head_dropWhile_not isWsChar t x hxh
      · rintro ⟨gap, hne, hall, heq, hr⟩
        cases gap with
        | nil => exact absurd rfl hne
        | cons g gap' =>
          rw [List.cons_append] at heq
          injection heq with _ h2
          rw [h2]
          exact dropWhile_of_decomp isWsChar gap' r
            (fun x hx => hall x (List.mem_cons_of_mem _ hx)) hr
    · apply iff_of_false (by simp)
      rintro ⟨gap, hne, hall, heq, _⟩
      cases gap with
      | nil => exact hne rfl
      | cons g gap' =>
        rw [List.cons_append] at heq
        injection heq with h1 _
        exact hc (h1 ▸ hall g (List.mem_cons_self _ _))

/-- A phrase instance starts with its first word. -/
lemma phraseSeg_head :
    ∀ (w : List Char) (ws : List (List Char)) (mid : List Char),
      PhraseSeg (w :: ws) mid → ∃ tail, mid = w ++ tail := by
  intro w ws mid h
  cases ws with
  | nil =>
    refine ⟨[], ?_⟩
    have hmw : mid = w := h
    simp [hmw]
  | cons w' ws' =>
    obtain ⟨gap, rest, heq, _, _, _⟩ := h
    exact ⟨gap ++ rest, by rw [heq, List.append_assoc]⟩

/-- `matchWords` succeeds exactly on inputs starting with a phrase
instance of the (well-formed) word list. -/
lemma matchWords_eq_some :
    ∀ words : List (List Char), WFWords words →
      ∀ s r : List Char,
        matchWords words s = some r ↔ ∃ mid, s = mid ++ r ∧ PhraseSeg words mid := by
  intro words
  induction words with
  | nil =>
    intro _ s r
    simp [matchWords, PhraseSeg]
  | cons w ws ih =>
    intro hwf s r
    cases ws with
    | nil =>
      rw [show matchWords [w] s = matchChars w s from rfl, matchChars_eq_some]
      constructor
      · intro h
        exact ⟨w, h, rfl⟩
      · rintro ⟨mid, heq, hps⟩
        have hmw : mid = w := hps
        rw [← hmw]
        exact heq
    | cons w' ws' =>
      have hwf' : WFWords (w' :: ws') := fun x hx => hwf x (List.mem_cons_of_mem _ hx)
      constructor
      · intro h
        cases hmc : matchChars w s with
        | none =>
          simp only [matchWords, hmc] at h
          exact absurd h (by simp)
        | some s1 =>
          cases hmg : matchGap s1 with
          | none =>
            simp only [matchWords, hmc, hmg] at h
            exact absurd h (by simp)
          | some s2 =>
            simp only [matchWords, hmc, hmg] at h
            obtain ⟨mid', hs2, hps'⟩ := (ih hwf' s2 r).mp h
            have hs : s = w ++ s1 := (matchChars_eq_some w s s1).mp hmc
            obtain ⟨gap, hgne, hgall, hs1, _⟩ := (matchGap_eq_some s1 s2).mp hmg
            refine ⟨w ++ (gap ++ mid'), ?_, ?_⟩
            · rw [hs, hs1, hs2]
              simp [List.append_assoc]
            · exact ⟨gap, mid', by rw [List.append_assoc], hgne, hgall, hps'⟩
      · rintro ⟨mid, heq, hps⟩
        obtain ⟨gap, rest, hmid, hgne, hgall, hps'⟩ := hps
        obtain ⟨tail, hrest⟩ := phraseSeg_head w' ws' rest hps'
        have hw' := hwf w' (List.mem_cons_of_mem _ (List.mem_cons_self _ _))
        have hmc : matchChars w s = some (gap ++ (rest ++ r)) := by
          rw [matchChars_eq_some, heq, hmid]
          simp [List.append_assoc]
        have hrhead : ∀ c, (rest ++ r).head? = some c → isWsChar c = false := by
          intro c hcc
          cases hw1 : w' with
          | nil => exact absurd hw1 hw'.1
          | cons a as =>
            rw [hrest, hw1, List.cons_append, List.cons_append, List.head?_cons,
              Option.some_inj] at hcc
            subst hcc
            exact wordChar_not_ws (hw'.2 a (by rw [hw1]; exact List.mem_cons_self _ _))
        have hmg : matchGap (gap ++ (rest ++ r)) = some (rest ++ r) := by
          rw [matchGap_eq_some]
          exact ⟨gap, hgne, hgall, rfl, hrhead⟩
        have hmw : matchWords (w' :: ws') (rest ++ r) = some r :=
          (ih hwf' (rest ++ r) r).mpr ⟨rest, rfl, hps'⟩
        simp only [matchWords, hmc, hmg, hmw]

/-- The scan flag after consuming one more character. -/
lemma prevFlag_cons (prev : Bool) (c : Char) (pre : List Char) :
    prevFlag prev (c :: pre) = prevFlag (isWordChar c) pre := by
  cases pre with
  | nil => rfl
  | cons d pre' =>
    unfold prevFlag
    rw [List.getLast?_cons_cons]
    cases h : (d :: pre').getLast? with
    | none =>
      rw [List.getLast?_eq_none_iff] at h
      exact absurd h (by simp)
    | some e => rfl

/-- The trailing-`\b` check as a predicate on the residue's head. -/
lemma boundaryOk_iff (r : List Char) :
    boundaryOk r = true ↔ ∀ c, r.head? = some c → isWordChar c = false := by
  cases r with
  | nil => simp [boundaryOk]
  | cons c t =>
    unfold boundaryOk
    simp only [List.head?_cons, Option.some_inj, Bool.not_eq_true']
    constructor
    · rintro h c' rfl
      exact h
    · intro h
      exact h c rfl

/-- The pattern matches at the current position exactly when the input is
a phrase instance followed by a non-word-character residue. -/
lemma tryHere_iff (words : List (List Char)) (hwf : WFWords words) (s : List Char) :
    tryHere words s = true ↔
      ∃ mid post, s = mid ++ post ∧ PhraseSeg words mid ∧
        (∀ c, post.head? = some c → isWordChar c = false) := by
  unfold tryHere
  cases hmw : matchWords words s with
  | none =>
    apply iff_of_false (by simp)
    rintro ⟨mid, post, heq, hps, _⟩
    have h2 : matchWords words s = some post :=
      (matchWords_eq_some words hwf s post).mpr ⟨mid, heq, hps⟩
    rw [hmw] at h2
    exact Option.noConfusion h2
  | some r =>
    rw [boundaryOk_iff]
    constructor
    · intro hb
      obtain ⟨mid, heq, hps⟩ := (matchWords_eq_some words hwf s r).mp hmw
      exact ⟨mid, r, heq, hps, hb⟩
    · rintro ⟨mid, post, heq, hps, hpost⟩
      have h2 : matchWords words s = some post :=
        (matchWords_eq_some words hwf s post).mpr ⟨mid, heq, hps⟩
      rw [hmw, Option.some_inj] at h2
      subst h2
      exact hpost

/-- The scan finds the pattern exactly when the text splits at a position
whose left context ends in a non-word character (or is the start, with the
flag clear) and where the pattern matches. -/
lemma wbScan_iff (words : List (List Char)) :
    ∀ (s : List Char) (prev : Bool),
      wbScan words s prev = true ↔
        ∃ pre rest, s = pre ++ rest ∧ prevFlag prev pre = false ∧
          tryHere words rest = true := by
  intro s
  induction s with
  | nil =>
    intro prev
    rw [show wbScan words [] prev = (!prev && tryHere words []) from rfl]
    rw [Bool.and_eq_true]
    constructor
    · intro h
      exact ⟨[], [], rfl, by simpa [prevFlag] using h.1, h.2⟩
    · rintro ⟨pre, rest, heq, hflag, htry⟩
      obtain ⟨hpre, hrest⟩ := List.append_eq_nil.mp heq.symm
      subst hpre
      subst hrest
      exact ⟨by simpa [prevFlag] using hflag, htry⟩
  | cons c t ih =>
    intro prev
    rw [show wbScan words (c :: t) prev =
        ((!prev && tryHere words (c :: t)) || wbScan words t (isWordChar c)) from rfl]
    rw [Bool.or_eq_true, Bool.and_eq_true, ih]
    constructor
    · rintro (⟨hp, ht⟩ | ⟨pre', rest, heq, hflag, htry⟩)
      · exact ⟨[], c :: t, rfl, by simpa [prevFlag] using hp, ht⟩
      · exact ⟨c :: pre', rest, by rw [List.cons_append, heq],
          by rw [prevFlag_cons]; exact hflag, htry⟩
    · rintro ⟨pre, rest, heq, hflag, htry⟩
      cases pre with
      | nil =>
        rw [List.nil_append] at heq
        subst heq
        exact Or.inl ⟨by simpa [prevFlag] using hflag, htry⟩
      | cons c' pre' =>
        rw [List.cons_append] at heq
        injection heq with h1 h2
        subst h1
        rw [prevFlag_cons] at hflag
        exact Or.inr ⟨pre', rest, h2, hflag, htry⟩

/-- With a clear initial flag, the scan flag is clear exactly when the
consumed text does not end in a word character. -/
lemma prevFlag_false (pre : List Char) :
    prevFlag false pre = false ↔
      ∀ c, pre.getLast? = some c → isWordChar c = false := by
  unfold prevFlag
  cases h : pre.getLast? with
  | none => simp
  | some c =>
    constructor
    · rintro hw c' hc'
      rw [Option.some_inj] at hc'
      subst hc'
      exact hw
    · intro hall
      exact hall c rfl

/-- C1: `word_boundary_search` finds a (well-formed) keyword exactly when
it occurs as a whole word — a whole phrase, for multi-word keywords — in
the text, case-insensitively; in the scorer, text containing "said"
scores 0 against keyword "ai" while "AI startup" matches it. -/
theorem claim_C1 :
    (∀ text keyword : String, WFKeyword keyword →
        (word_boundary_search text keyword = true ↔ OccursWholeWord text keyword)) ∧
    calculate_category_score "tech" ["ai"]
        { emptyTS with content := "she said hello" } = (0, []) ∧
    calculate_category_score "tech" ["ai"]
        { emptyTS with name := "AI startup" } = (3, ["ai in name"]) := by
  refine ⟨?_, by with_unfolding_all decide, by with_unfolding_all decide⟩
  intro text keyword hwf
  unfold word_boundary_search OccursWholeWord
  rw [wbScan_iff]
  constructor
  · rintro ⟨pre, rest, heq, hflag, htry⟩
    obtain ⟨mid, post, hrest, hps, hpost⟩ :=
      (tryHere_iff _ hwf rest).mp htry
    refine ⟨pre, mid, post, ?_, hps, (prevFlag_false pre).mp hflag, hpost⟩
    rw [heq, hrest, List.append_assoc]
  · rintro ⟨pre, mid, post, heq, hps, hpre, hpost⟩
    refine ⟨pre, mid ++ post, ?_, (prevFlag_false pre).mpr hpre, ?_⟩
    · rw [heq, List.append_assoc]
    · exact (tryHere_iff _ hwf (mid ++ post)).mpr ⟨mid, post, rfl, hps, hpost⟩

/-- C1 witness: "ai" is a well-formed keyword and occurs as a whole word
in "AI startup". -/
theorem claim_C1_witness : OccursWholeWord "AI startup" "ai" :=
  (claim_C1.1 "AI startup" "ai" (by decide)).mp (by decide)

end Substacker
